import Mathlib

/-!
Verification of the airman_rag repository: a shallow embedding of the
hybrid retriever (`app/retriever.py`), the evaluation engine
(`evaluation/evaluate.py`), the answer pipeline (`app/llm.py`,
`app/rag_pipeline.py`) and the chunker (`app/chunker.py`), together with
theorems settling the specification's claims about them.

Strings are modelled as `List Char`; Python's arbitrary-precision ints as
`Int` (loop counters and sizes) or `Nat` where the source only ever
produces non-negative values; Python floats as exact rationals `ℚ`;
fallible operations return `Option` or `Except`.
-/

namespace AirmanRag

/-- Python's notion of a whitespace character for `str.strip` and the
regex class `\s` (ASCII range, which is all the repository exercises). -/
def pyIsSpace (c : Char) : Bool :=
  c = ' ' || c = '\t' || c = '\n' || c = '\r' || c = '\x0b' || c = '\x0c'

/-- Python `str.strip()`: drop leading and trailing whitespace. -/
def pyStrip (s : List Char) : List Char :=
  ((s.dropWhile pyIsSpace).reverse.dropWhile pyIsSpace).reverse

/-- Python `str.lower()` (ASCII model of case folding). -/
def pyLower (s : List Char) : List Char :=
  s.map Char.toLower

/-- Replace each maximal run of whitespace by a single space: the effect of
`re.sub(r"\s+", " ", text)`. The flag records whether the previous
character belonged to a whitespace run already rewritten to `' '`. -/
def collapseWsAux : Bool → List Char → List Char
  | _, [] => []
  | inRun, c :: cs =>
    if pyIsSpace c then
      if inRun then collapseWsAux true cs
      else ' ' :: collapseWsAux true cs
    else c :: collapseWsAux false cs

/-- `re.sub(r"\s+", " ", text)`. -/
def collapseWs (s : List Char) : List Char :=
  collapseWsAux false s

/-- `normalize` from `evaluation/evaluate.py`:
`re.sub(r"\s+", " ", text.lower().strip())`. -/
def normalize (s : List Char) : List Char :=
  collapseWs (pyStrip (pyLower s))

/-- The regex class `\w` (ASCII model: letters, digits, underscore). -/
def isWordChar (c : Char) : Bool :=
  c.isAlphanum || c = '_'

/-- Split a string into its maximal runs of word characters; the effect of
`re.findall(r"\b\w+\b", s)`. `acc` holds the current run reversed. -/
def wordRunsAux : List Char → List Char → List (List Char)
  | [], acc => if acc = [] then [] else [acc.reverse]
  | c :: cs, acc =>
    if isWordChar c then wordRunsAux cs (c :: acc)
    else if acc = [] then wordRunsAux cs []
    else acc.reverse :: wordRunsAux cs []

/-- `tokenize` from `evaluation/evaluate.py`:
`set(re.findall(r"\b\w+\b", normalize(text)))`. -/
def tokenize (s : List Char) : Finset (List Char) :=
  (wordRunsAux (normalize s) []).toFinset

/-- `overlap_score` from `evaluation/evaluate.py`:
`|answer ∩ chunks| / |answer|`, and `1.0` for an empty answer token set. -/
def overlap_score (answerTokens chunkTokens : Finset (List Char)) : ℚ :=
  if answerTokens = ∅ then 1
  else mkRat ((answerTokens ∩ chunkTokens).card : Int) answerTokens.card

/-- A corpus fragment as stored in `vector_store/metadata.json`:
`{"doc": file, "page": i, "text": chunk}` built in `app/ingest.py`
(`page` comes from `enumerate`, hence is a natural number). -/
structure Chunk where
  doc : List Char
  page : Nat
  text : List Char
deriving DecidableEq, Repr

/-- The canonical refusal sentence (`REFUSAL` in `app/llm.py` and
`evaluation/evaluate.py`). -/
def REFUSAL : List Char :=
  "This information is not available in the provided document(s).".data

/-- Union of the token sets of all fragments:
`chunk_tok = ⋃ tokenize(c.get("text", ""))` in `evaluate.py`. -/
def chunksTokens (chunks : List Chunk) : Finset (List Char) :=
  chunks.foldl (fun s c => s ∪ tokenize c.text) ∅

/-- `retrieval_hit` from `evaluation/evaluate.py`. -/
def retrieval_hit (answer : List Char) (chunks : List Chunk) : Bool :=
  match chunks with
  | [] => false
  | c :: _ =>
    if c.text = [] then false
    else if pyStrip answer = pyStrip REFUSAL then false
    else decide (mkRat 3 20 ≤ overlap_score (tokenize answer) (chunksTokens chunks))

/-- `faithfulness` from `evaluation/evaluate.py`. -/
def faithfulness (answer : List Char) (chunks : List Chunk) : ℚ :=
  if pyStrip answer = pyStrip REFUSAL then 1
  else if chunks = [] then 0
  else overlap_score (tokenize answer) (chunksTokens chunks)

/-- `is_hallucination` from `evaluation/evaluate.py`. -/
def is_hallucination (answer : List Char) (chunks : List Chunk) : Bool :=
  if pyStrip answer = pyStrip REFUSAL then false
  else decide (faithfulness answer chunks < mkRat 1 4)

/-! ### The evaluation loop (`run_evaluation` in `evaluation/evaluate.py`) -/

/-- One record of the `results` list built by `run_evaluation`, keeping the
fields the aggregate metrics read. -/
structure EvalRecord where
  answer : List Char
  chunks : List Chunk
  error : Option (List Char)
  hit : Bool
  faith : ℚ
  hall : Bool
deriving Repr

/-- One iteration of the `run_evaluation` loop, as a function of the
outcome of the `/ask` call: a transport failure is recorded with empty
answer and chunks, `retrieval_hit = False`, `faithfulness = 0.0`,
`hallucination = True`; a successful call is scored with the three
metric functions. -/
def mkRecord : Except (List Char) (List Char × List Chunk) → EvalRecord
  | .error e => ⟨[], [], some e, false, 0, true⟩
  | .ok (answer, chunks) =>
    ⟨answer, chunks, none, retrieval_hit answer chunks,
      faithfulness answer chunks, is_hallucination answer chunks⟩

/-- The `results` list of `run_evaluation`, as a function of the sequence
of `/ask` outcomes. -/
def evalResults (outcomes : List (Except (List Char) (List Char × List Chunk))) :
    List EvalRecord :=
  outcomes.map mkRecord

/-- `faithful = sum(1 for r in results if r.get("faithfulness", 0) >= 0.25)`. -/
def faithfulCount (results : List EvalRecord) : Nat :=
  results.countP (fun r => decide (mkRat 1 4 ≤ r.faith))

/-- `halls = sum(1 for r in results if r.get("hallucination"))`. -/
def hallCount (results : List EvalRecord) : Nat :=
  results.countP (fun r => r.hall)

/-- `faithfulness_rate = faithful / n if n else 0`. -/
def faithfulnessRate (results : List EvalRecord) : ℚ :=
  if results.length = 0 then 0 else mkRat (faithfulCount results : Int) results.length

/-- `hallucination_rate = halls / n if n else 0`. -/
def hallucinationRate (results : List EvalRecord) : ℚ :=
  if results.length = 0 then 0 else mkRat (hallCount results : Int) results.length

/-! ### The hybrid retriever (`app/retriever.py`) -/

/-- Python list indexing `xs[i]`: a negative index counts from the end;
out of range raises `IndexError`, modelled as `none`. -/
def pyGet (xs : List Chunk) (i : Int) : Option Chunk :=
  let j : Int := if i < 0 then (xs.length : Int) + i else i
  if h : 0 ≤ j ∧ j < (xs.length : Int) then
    some (xs.get ⟨j.toNat, by omega⟩)
  else none

/-- The deduplication key used in `retrieve`:
`(c.get("doc"), c.get("page"), c.get("text", "")[:50])`. -/
def dedupKey (c : Chunk) : List Char × Nat × List Char :=
  (c.doc, c.page, c.text.take 50)

/-- The fusion loop of `retrieve`:
```
for c in vector_chunks + bm25_chunks:
    key = (c.get("doc"), c.get("page"), c.get("text", "")[:50])
    if key not in seen:
        seen.add(key); combined.append(c)
    if len(combined) >= k:
        break
```
`seen` is the set of keys already taken, `combined` the accumulated output. -/
def fuseGo (k : Nat) : List Chunk → List (List Char × Nat × List Char) →
    List Chunk → List Chunk
  | [], _, combined => combined
  | c :: rest, seen, combined =>
    if dedupKey c ∈ seen then
      if k ≤ combined.length then combined
      else fuseGo k rest seen combined
    else
      if k ≤ (combined ++ [c]).length then combined ++ [c]
      else fuseGo k rest (dedupKey c :: seen) (combined ++ [c])

/-- One step of a stable descending insertion sort on corpus indices:
`i` is placed after every already-sorted index whose score is at least
`scores[i]` (so on a tie the index inserted earlier stays first) and
before the first strictly smaller score. -/
def insertIdxDesc (scores : List ℚ) (i : Nat) : List Nat → List Nat
  | [] => [i]
  | j :: rest =>
    if scores.getD i 0 ≤ scores.getD j 0 then j :: insertIdxDesc scores i rest
    else i :: j :: rest

/-- The descending stable sort of all corpus indices by BM25 score:
`sorted(range(len(bm25_scores)), key=lambda i: bm25_scores[i], reverse=True)`.
Python's `sorted` is documented as a stable sort, and `reverse=True` keeps
the original relative order of elements with equal keys; feeding the
indices in their original order through stable insertion realises exactly
those semantics. -/
def bm25Order (scores : List ℚ) : List Nat :=
  (List.range scores.length).foldl (fun acc i => insertIdxDesc scores i acc) []

/-- `bm25_top` in `retrieve`: the sorted index list truncated to `k`. -/
def bm25Top (scores : List ℚ) (k : Nat) : List Nat :=
  (bm25Order scores).take k

/-- `retrieve` from `app/retriever.py`. The external collaborators are
passed in as their observed outcomes: `embedRes` is the result of
`embed([query])`, `searchRes` the result row `I[0]` of `index.search`
(faiss labels are signed: an empty slot is `-1`), and `scores` the BM25
score vector over the corpus. An exception propagating out of a service
call, or an `IndexError` from `metadata[i]`, makes the call fail. -/
def retrieve (metadata : List Chunk) (scores : List ℚ)
    (embedRes : Except (List Char) Unit)
    (searchRes : Except (List Char) (List Int)) (k : Nat) :
    Except (List Char) (List Chunk) :=
  match embedRes with
  | .error e => .error e
  | .ok _ =>
    match searchRes with
    | .error e => .error e
    | .ok idxs =>
      match idxs.mapM (pyGet metadata) with
      | none => .error "IndexError".data
      | some vector_chunks =>
        match (bm25Top scores k).mapM (fun i => pyGet metadata (Int.ofNat i)) with
        | none => .error "IndexError".data
        | some bm25_chunks =>
          .ok ((fuseGo k (vector_chunks ++ bm25_chunks) [] []).take k)

/-- The row of labels faiss's `IndexFlatL2.search` returns when asked for
`k` neighbours of a query over an empty index: `k` padding labels `-1`. -/
def faissEmptySearchRow (k : Nat) : List Int :=
  List.replicate k (-1)

/-! ### The answer pipeline (`app/llm.py` and `app/rag_pipeline.py`) -/

/-- `generate` from `app/llm.py`: return `REFUSAL` when the context strips
to the empty string; otherwise the outcome of the Anthropic API call
(`genSvc`), whose exception — if any — propagates to the caller. -/
def generate (genSvc : Except (List Char) (List Char)) (context : List Char) :
    Except (List Char) (List Char) :=
  if pyStrip context = [] then .ok REFUSAL else genSvc

/-- The citation string `f'{c["doc"]} page {c["page"]+1}'` from
`app/rag_pipeline.py`. -/
def citation (c : Chunk) : List Char :=
  c.doc ++ " page ".data ++ (Nat.repr (c.page + 1)).data

/-- The response record of `ask_question`. -/
structure AskResult where
  answer : List Char
  citations : List (List Char)
  chunks : List Chunk
deriving DecidableEq, Repr

/-- `ask_question` from `app/rag_pipeline.py`, as a function of the
retrieved chunks and the generation-service outcome: the context is the
newline-join of the chunk texts; a falsy (empty) answer is replaced by
`REFUSAL`; `chunks` is echoed only in debug mode. An exception raised by
the generation call propagates. -/
def ask_question (retrieved : List Chunk)
    (genSvc : Except (List Char) (List Char)) (debug : Bool) :
    Except (List Char) AskResult :=
  let context := List.intercalate ['\n'] (retrieved.map Chunk.text)
  match generate genSvc context with
  | .error e => .error e
  | .ok answer =>
    .ok ⟨if answer = [] then REFUSAL else answer,
         retrieved.map citation,
         if debug then retrieved else []⟩

/-! ### The chunker (`app/chunker.py`) -/

/-- Python slicing `s[a:b]` with signed bounds (step 1): a negative bound
counts from the end, and both bounds are clamped into `[0, len]`. -/
def pySlice (s : List Char) (a b : Int) : List Char :=
  let n : Int := s.length
  let a' : Int := if a < 0 then max (n + a) 0 else min a n
  let b' : Int := if b < 0 then max (n + b) 0 else min b n
  (s.take b'.toNat).drop a'.toNat

/-- The `while` loop of `chunk_text`, run with explicit fuel so that
non-termination is observable as `none` for every fuel:
```
while start < len(text):
    chunks.append(text[start:start+size])
    start += size - overlap
```
-/
def chunkTextFuel (text : List Char) (size overlap : Int) :
    Nat → Int → List (List Char) → Option (List (List Char))
  | 0, _, _ => none
  | fuel + 1, start, chunks =>
    if start < (text.length : Int) then
      chunkTextFuel text size overlap fuel (start + (size - overlap))
        (chunks ++ [pySlice text start (start + size)])
    else some chunks

/-- `chunk_text(text, size, overlap)` from `app/chunker.py`, with fuel. -/
def chunk_text (text : List Char) (size overlap : Int) (fuel : Nat) :
    Option (List (List Char)) :=
  chunkTextFuel text size overlap fuel 0 []

/-! ## Theorems -/

/-- C4: `hallucination` is true only if `faithfulness < 0.25` and the answer
is not the canonical refusal string, and `faithfulness` equals `1.0` whenever
the answer equals the canonical refusal string, for every fragment list
including the empty one. -/
theorem hallucination_refusal_invariant (answer : List Char) (chunks : List Chunk) :
    (is_hallucination answer chunks = true →
      faithfulness answer chunks < mkRat 1 4 ∧ answer ≠ REFUSAL) ∧
    (answer = REFUSAL → faithfulness answer chunks = 1) := by
  constructor
  · intro h
    by_cases hs : pyStrip answer = pyStrip REFUSAL
    · simp [is_hallucination, hs] at h
    · rw [is_hallucination, if_neg hs, decide_eq_true_eq] at h
      exact ⟨h, fun he => hs (by rw [he])⟩
  · intro he
    rw [faithfulness, if_pos (by rw [he])]

/-- Witness for C4 at concrete inputs: the answer `"cats"` over no fragments
is a hallucination with faithfulness below the threshold, and the refusal
answer has faithfulness `1` even over no fragments. -/
theorem hallucination_refusal_invariant_witness :
    (faithfulness "cats".data [] < mkRat 1 4 ∧ "cats".data ≠ REFUSAL) ∧
    faithfulness REFUSAL [] = 1 :=
  ⟨(hallucination_refusal_invariant "cats".data []).1 (by decide),
   (hallucination_refusal_invariant REFUSAL []).2 rfl⟩

/-- The first fragment used in the C5 counterexample: its text is the
refusal sentence itself, so its token set covers the answer's tokens. -/
def c5Chunk : Chunk :=
  ⟨"doc.pdf".data, 0, REFUSAL⟩

/-- The answer used in the C5 counterexample: the refusal sentence with one
leading space, which is not byte-for-byte equal to `REFUSAL` but becomes
equal to it under `str.strip()`. -/
def c5Answer : List Char :=
  ' ' :: REFUSAL

/-- C5 counterexample: the claim says that when the fragment list is
non-empty with non-empty first text and the answer is not the canonical
refusal sentence, `retrieval_hit` is true iff the overlap reaches `0.15`.
Here all those side conditions hold and the overlap is `1`, yet
`retrieval_hit` is false, because the code compares the answer with the
refusal sentence after `str.strip()` rather than byte-for-byte. -/
theorem retrieval_hit_strip_counterexample :
    c5Answer ≠ REFUSAL ∧ [c5Chunk] ≠ ([] : List Chunk) ∧ c5Chunk.text ≠ [] ∧
    mkRat 3 20 ≤ overlap_score (tokenize c5Answer) (chunksTokens [c5Chunk]) ∧
    retrieval_hit c5Answer [c5Chunk] = false := by
  refine ⟨by decide, by simp, by decide, by decide, by decide⟩

/-- C5 amended: `retrieval_hit` is false when the fragment list is empty or
the first fragment's text is empty, false when the answer equals the
canonical refusal sentence after stripping leading and trailing whitespace,
and otherwise true iff the overlap of the answer tokens with the union of
the fragment token sets is at least `0.15`. -/
theorem retrieval_hit_spec (answer : List Char) (chunks : List Chunk) :
    (chunks = [] → retrieval_hit answer chunks = false) ∧
    (∀ c rest, chunks = c :: rest → c.text = [] →
      retrieval_hit answer chunks = false) ∧
    (pyStrip answer = pyStrip REFUSAL → retrieval_hit answer chunks = false) ∧
    (∀ c rest, chunks = c :: rest → c.text ≠ [] →
      pyStrip answer ≠ pyStrip REFUSAL →
      (retrieval_hit answer chunks = true ↔
        mkRat 3 20 ≤ overlap_score (tokenize answer) (chunksTokens chunks))) := by
  refine ⟨?_, ?_, ?_, ?_⟩
  · intro h; rw [h]; rfl
  · intro c rest h hc; rw [h, retrieval_hit, if_pos hc]
  · intro hs
    cases chunks with
    | nil => rfl
    | cons c rest =>
      rw [retrieval_hit]
      by_cases hc : c.text = []
      · rw [if_pos hc]
      · rw [if_neg hc, if_pos hs]
  · intro c rest h hc hs
    rw [h, retrieval_hit, if_neg hc, if_neg hs, decide_eq_true_eq]

/-- Witness for C5 at a concrete input: an answer sharing half of its tokens
with a single fragment is a retrieval hit. -/
theorem retrieval_hit_spec_witness :
    retrieval_hit "hello world".data [⟨"d".data, 0, "hello there friend".data⟩] = true :=
  ((retrieval_hit_spec "hello world".data [⟨"d".data, 0, "hello there friend".data⟩]).2.2.2
    ⟨"d".data, 0, "hello there friend".data⟩ [] rfl (by decide) (by decide)).mpr (by decide)

/-- Every record the evaluation loop can produce — a scored case or a
failed-case record — is faithful (`faithfulness ≥ 0.25`) exactly when it is
not a hallucination. -/
lemma mkRecord_faithful_iff_not_hall (o : Except (List Char) (List Char × List Chunk)) :
    (mkRat 1 4 ≤ (mkRecord o).faith ↔ (mkRecord o).hall = false) := by
  cases o with
  | error e =>
    show mkRat 1 4 ≤ (0 : ℚ) ↔ true = false
    exact iff_of_false (by decide) (by simp)
  | ok p =>
    obtain ⟨ans, chunks⟩ := p
    show mkRat 1 4 ≤ faithfulness ans chunks ↔ is_hallucination ans chunks = false
    by_cases hs : pyStrip ans = pyStrip REFUSAL
    · rw [faithfulness, if_pos hs, is_hallucination, if_pos hs]
      exact iff_of_true (by decide) rfl
    · rw [is_hallucination, if_neg hs, decide_eq_false_iff_not, not_lt]

/-- C9: every case produced by the evaluation loop (failed-case records
included) satisfies exactly one of `faithfulness ≥ 0.25` and
`hallucination`; hence the faithful-case count plus the hallucination-case
count equals the number of cases, and `faithfulness_rate +
hallucination_rate = 1` whenever there is at least one case. -/
theorem evaluation_partition
    (outcomes : List (Except (List Char) (List Char × List Chunk))) :
    (∀ r ∈ evalResults outcomes, (mkRat 1 4 ≤ r.faith ↔ r.hall = false)) ∧
    faithfulCount (evalResults outcomes) + hallCount (evalResults outcomes) =
      (evalResults outcomes).length ∧
    (0 < (evalResults outcomes).length →
      faithfulnessRate (evalResults outcomes) + hallucinationRate (evalResults outcomes)
        = 1) := by
  have hmem : ∀ r ∈ evalResults outcomes, (mkRat 1 4 ≤ r.faith ↔ r.hall = false) := by
    intro r hr
    obtain ⟨o, _, rfl⟩ := List.mem_map.mp hr
    exact mkRecord_faithful_iff_not_hall o
  have hcount : faithfulCount (evalResults outcomes) + hallCount (evalResults outcomes) =
      (evalResults outcomes).length := by
    rw [faithfulCount, hallCount,
      List.length_eq_countP_add_countP (p := fun r => decide (mkRat 1 4 ≤ r.faith))]
    congr 1
    refine List.countP_congr ?_
    intro r hr
    simp only [decide_eq_true_eq, not_le]
    rw [← not_le]
    constructor
    · intro h
      exact fun hle => by simp [(hmem r hr).mp hle] at h
    · intro h
      rcases Bool.eq_false_or_eq_true r.hall with ht | hf
      · exact ht
      · exact absurd ((hmem r hr).mpr hf) h
  refine ⟨hmem, hcount, ?_⟩
  intro hn
  have hne : (evalResults outcomes).length ≠ 0 := Nat.pos_iff_ne_zero.mp hn
  rw [faithfulnessRate, hallucinationRate, if_neg hne, if_neg hne,
    Rat.mkRat_eq_div, Rat.mkRat_eq_div, div_add_div_same]
  rw [show ((faithfulCount (evalResults outcomes) : Int) : ℚ) +
        ((hallCount (evalResults outcomes) : Int) : ℚ) =
        (((evalResults outcomes).length : Int) : ℚ) by push_cast [← hcount]; ring]
  exact div_self (by exact_mod_cast hne)

/-- Witness for C9 at a concrete outcome list: one refusal answer and one
transport failure give rates summing to `1`. -/
theorem evaluation_partition_witness :
    0 < (evalResults [Except.ok (REFUSAL, ([] : List Chunk)),
          Except.error "timeout".data]).length ∧
    faithfulnessRate (evalResults [Except.ok (REFUSAL, ([] : List Chunk)),
          Except.error "timeout".data]) +
      hallucinationRate (evalResults [Except.ok (REFUSAL, ([] : List Chunk)),
          Except.error "timeout".data]) = 1 :=
  ⟨by decide,
   (evaluation_partition [Except.ok (REFUSAL, ([] : List Chunk)),
      Except.error "timeout".data]).2.2 (by decide)⟩

/-- The strict order realised by the lexical top-k selection: higher score
first, and on equal scores the smaller (earlier) corpus index first. -/
def scoreIdxOrder (scores : List ℚ) (i j : Nat) : Prop :=
  scores.getD j 0 < scores.getD i 0 ∨
    (scores.getD i 0 = scores.getD j 0 ∧ i < j)

/-- Inserting an index keeps the list a permutation of the index consed on. -/
lemma insertIdxDesc_perm (scores : List ℚ) (i : Nat) :
    ∀ l : List Nat, (insertIdxDesc scores i l).Perm (i :: l) := by
  intro l
  induction l with
  | nil => rfl
  | cons j rest ih =>
    rw [insertIdxDesc]
    by_cases hle : scores.getD i 0 ≤ scores.getD j 0
    · rw [if_pos hle]
      exact (ih.cons j).trans (List.Perm.swap i j rest)
    · rw [if_neg hle]

/-- Inserting an index larger than everything already present preserves the
score-then-index ordering. -/
lemma insertIdxDesc_pairwise (scores : List ℚ) (i : Nat) :
    ∀ l : List Nat, l.Pairwise (scoreIdxOrder scores) → (∀ j ∈ l, j < i) →
      (insertIdxDesc scores i l).Pairwise (scoreIdxOrder scores) := by
  intro l
  induction l with
  | nil => intro _ _; simp [insertIdxDesc]
  | cons j rest ih =>
    intro hl hup
    rw [insertIdxDesc]
    by_cases hle : scores.getD i 0 ≤ scores.getD j 0
    · rw [if_pos hle, List.pairwise_cons]
      refine ⟨?_, ih (List.pairwise_cons.mp hl).2
        (fun x hx => hup x (List.mem_cons_of_mem j hx))⟩
      intro x hx
      rcases List.mem_cons.mp ((insertIdxDesc_perm scores i rest).mem_iff.mp hx) with
        hxi | hxrest
      · subst hxi
        rcases lt_or_eq_of_le hle with hlt | heq
        · exact Or.inl hlt
        · exact Or.inr ⟨heq.symm, hup j (List.mem_cons_self j rest)⟩
      · exact (List.pairwise_cons.mp hl).1 x hxrest
    · rw [if_neg hle, List.pairwise_cons]
      refine ⟨?_, hl⟩
      intro x hx
      rcases List.mem_cons.mp hx with hxj | hxrest
      · subst hxj
        exact Or.inl (lt_of_not_le hle)
      · have hxj : scores.getD x 0 ≤ scores.getD j 0 := by
          rcases (List.pairwise_cons.mp hl).1 x hxrest with h | h
          · exact le_of_lt h
          · exact le_of_eq h.1.symm
        exact Or.inl (lt_of_le_of_lt hxj (lt_of_not_le hle))

/-- The fold that builds `bm25Order`, over any index list that is strictly
increasing and above everything accumulated so far. -/
lemma bm25Order_fold_spec (scores : List ℚ) :
    ∀ (idxs acc : List Nat), acc.Pairwise (scoreIdxOrder scores) →
      (∀ j ∈ acc, ∀ i ∈ idxs, j < i) → idxs.Pairwise (· < ·) →
      (idxs.foldl (fun acc i => insertIdxDesc scores i acc) acc).Pairwise
          (scoreIdxOrder scores) ∧
      (idxs.foldl (fun acc i => insertIdxDesc scores i acc) acc).Perm (acc ++ idxs) := by
  intro idxs
  induction idxs with
  | nil => intro acc hacc _ _; simpa using hacc
  | cons i rest ih =>
    intro acc hacc hup hinc
    have hupi : ∀ j ∈ acc, j < i :=
      fun j hj => hup j hj i (List.mem_cons_self i rest)
    have hacc' := insertIdxDesc_pairwise scores i acc hacc hupi
    have hup' : ∀ j ∈ insertIdxDesc scores i acc, ∀ i' ∈ rest, j < i' := by
      intro j hj i' hi'
      rcases List.mem_cons.mp ((insertIdxDesc_perm scores i acc).mem_iff.mp hj) with
        hji | hjacc
      · subst hji
        exact (List.pairwise_cons.mp hinc).1 i' hi'
      · exact hup j hjacc i' (List.mem_cons_of_mem i hi')
    obtain ⟨h1, h2⟩ := ih (insertIdxDesc scores i acc) hacc' hup'
      (List.pairwise_cons.mp hinc).2
    refine ⟨h1, h2.trans
      (((insertIdxDesc_perm scores i acc).append_right rest).trans ?_)⟩
    show (i :: (acc ++ rest)).Perm (acc ++ i :: rest)
    exact List.perm_middle.symm

/-- C6: the lexical path's top-k indices are chosen by descending BM25
score with ties broken by original corpus order: the full sorted index
list is a permutation of `range n` ordered by score descending then index
ascending, and `bm25_top` is its `k`-prefix. -/
theorem bm25_top_ranking (scores : List ℚ) (k : Nat) :
    (bm25Order scores).Perm (List.range scores.length) ∧
    (bm25Order scores).Pairwise (scoreIdxOrder scores) ∧
    bm25Top scores k = (bm25Order scores).take k := by
  obtain ⟨h1, h2⟩ := bm25Order_fold_spec scores (List.range scores.length) []
    (List.Pairwise.nil) (by simp) (List.pairwise_lt_range _)
  exact ⟨by simpa using h2, h1, rfl⟩

/-- The fusion loop only ever emits fragments with pairwise distinct
deduplication keys: the keys of the accumulator stay distinct and inside
the `seen` set. -/
lemma fuseGo_nodup_keys (k : Nat) :
    ∀ (cs : List Chunk) (seen : List (List Char × Nat × List Char))
      (combined : List Chunk),
      (combined.map dedupKey).Nodup → (∀ c ∈ combined, dedupKey c ∈ seen) →
      ((fuseGo k cs seen combined).map dedupKey).Nodup := by
  intro cs
  induction cs with
  | nil => intro seen combined h1 _; exact h1
  | cons c rest ih =>
    intro seen combined h1 h2
    rw [fuseGo]
    by_cases hmem : dedupKey c ∈ seen
    · rw [if_pos hmem]
      by_cases hk : k ≤ combined.length
      · rw [if_pos hk]; exact h1
      · rw [if_neg hk]; exact ih seen combined h1 h2
    · rw [if_neg hmem]
      have hkey : dedupKey c ∉ combined.map dedupKey := by
        intro hc
        obtain ⟨c', hc', he⟩ := List.mem_map.mp hc
        exact hmem (he ▸ h2 c' hc')
      have h1' : ((combined ++ [c]).map dedupKey).Nodup := by
        rw [List.map_append]
        refine (List.perm_append_singleton _ _).nodup_iff.mpr ?_
        exact List.nodup_cons.mpr ⟨hkey, h1⟩
      by_cases hk : k ≤ (combined ++ [c]).length
      · rw [if_pos hk]; exact h1'
      · rw [if_neg hk]
        refine ih (dedupKey c :: seen) (combined ++ [c]) h1' ?_
        intro c' hc'
        rcases List.mem_append.mp hc' with hl | hr
        · exact List.mem_cons_of_mem _ (h2 c' hl)
        · rw [List.mem_singleton.mp hr]
          exact List.mem_cons_self _ _

/-- C2: whenever `retrieve` succeeds, the returned sequence has length at
most `k`, and no two returned fragments share the deduplication key
`(source_document, page_index, first 50 characters of text)`. -/
theorem retrieve_length_le_and_nodup (metadata : List Chunk) (scores : List ℚ)
    (embedRes : Except (List Char) Unit) (searchRes : Except (List Char) (List Int))
    (k : Nat) (result : List Chunk)
    (h : retrieve metadata scores embedRes searchRes k = .ok result) :
    result.length ≤ k ∧ (result.map dedupKey).Nodup := by
  rcases embedRes with e | u
  · exact absurd h (by simp [retrieve])
  · rcases searchRes with e | idxs
    · exact absurd h (by simp [retrieve])
    · simp only [retrieve] at h
      rcases hv : idxs.mapM (pyGet metadata) with _ | vector_chunks
      · rw [hv] at h; simp at h
      · rw [hv] at h
        rcases hb : (bm25Top scores k).mapM (fun i => pyGet metadata (Int.ofNat i)) with
          _ | bm25_chunks
        · rw [hb] at h; simp at h
        · rw [hb] at h
          simp only [Except.ok.injEq] at h
          have hres : result = (fuseGo k (vector_chunks ++ bm25_chunks) [] []).take k :=
            h.symm
          subst hres
          constructor
          · simp
          · rw [List.map_take]
            refine List.Nodup.sublist (List.take_sublist _ _) ?_
            exact fuseGo_nodup_keys k (vector_chunks ++ bm25_chunks) [] []
              List.nodup_nil (by simp)

/-- Witness for C2 at a concrete corpus of one fragment. -/
theorem retrieve_length_le_and_nodup_witness :
    ([(⟨"a.pdf".data, 0, "engines require inspection".data⟩ : Chunk)].length ≤ 1) ∧
    (([(⟨"a.pdf".data, 0, "engines require inspection".data⟩ : Chunk)].map
        dedupKey).Nodup) :=
  retrieve_length_le_and_nodup
    [⟨"a.pdf".data, 0, "engines require inspection".data⟩] [1]
    (.ok ()) (.ok [0]) 1
    [⟨"a.pdf".data, 0, "engines require inspection".data⟩] rfl

/-- When every candidate carries a fresh deduplication key, the fusion loop
takes candidates in order until `k` are collected. -/
lemma fuseGo_eq_take (k : Nat) :
    ∀ (cs : List Chunk) (seen : List (List Char × Nat × List Char))
      (combined : List Chunk),
      (cs.map dedupKey).Nodup → (∀ c ∈ cs, dedupKey c ∉ seen) →
      combined.length < k →
      fuseGo k cs seen combined = combined ++ cs.take (k - combined.length) := by
  intro cs
  induction cs with
  | nil => intro seen combined _ _ _; simp [fuseGo]
  | cons c rest ih =>
    intro seen combined hnd hfresh hlt
    rw [fuseGo, if_neg (hfresh c (List.mem_cons_self c rest))]
    by_cases hk : k ≤ (combined ++ [c]).length
    · rw [if_pos hk]
      have : k - combined.length = 1 := by
        simp only [List.length_append, List.length_singleton] at hk
        omega
      rw [this]
      simp
    · rw [if_neg hk]
      obtain ⟨m, hm⟩ : ∃ m, k - combined.length = m + 1 :=
        ⟨k - combined.length - 1, by omega⟩
      have hnd2 : (rest.map dedupKey).Nodup :=
        (List.nodup_cons.mp (by simpa using hnd)).2
      have hfresh2 : ∀ c' ∈ rest, dedupKey c' ∉ dedupKey c :: seen := by
        intro c' hc' hmem
        rcases List.mem_cons.mp hmem with he | hseen
        · have hcfresh : dedupKey c ∉ (rest.map dedupKey) :=
            (List.nodup_cons.mp (by simpa using hnd)).1
          exact hcfresh (he ▸ List.mem_map_of_mem dedupKey hc')
        · exact hfresh c' (List.mem_cons_of_mem c hc') hseen
      have hlt2 : (combined ++ [c]).length < k := by
        simp only [not_le] at hk
        exact hk
      rw [ih (dedupKey c :: seen) (combined ++ [c]) hnd2 hfresh2 hlt2]
      have hm1 : k - (combined ++ [c]).length = m := by
        simp only [List.length_append, List.length_singleton]
        omega
      rw [hm1, hm, List.take_succ_cons]
      simp

/-- C3: if the vector path resolves to at least `k` fragments, the lexical
path resolves without error, and no two candidates from the concatenated
vector-then-lexical list share a deduplication key, then `retrieve`
returns exactly the first `k` vector-search fragments in the vector
service's ranking order. -/
theorem retrieve_vector_first (metadata : List Chunk) (scores : List ℚ)
    (idxs : List Int) (k : Nat) (vector_chunks bm25_chunks : List Chunk)
    (hv : idxs.mapM (pyGet metadata) = some vector_chunks)
    (hb : (bm25Top scores k).mapM (fun i => pyGet metadata (Int.ofNat i)) =
      some bm25_chunks)
    (hk : 0 < k) (hlen : k ≤ vector_chunks.length)
    (hnd : ((vector_chunks ++ bm25_chunks).map dedupKey).Nodup) :
    retrieve metadata scores (.ok ()) (.ok idxs) k = .ok (vector_chunks.take k) := by
  simp only [retrieve]
  rw [hv, hb]
  show Except.ok ((fuseGo k (vector_chunks ++ bm25_chunks) [] []).take k) =
    Except.ok (vector_chunks.take k)
  rw [fuseGo_eq_take k (vector_chunks ++ bm25_chunks) [] [] hnd (by simp)
    (by simpa using hk)]
  simp only [List.nil_append, List.length_nil, Nat.sub_zero,
    List.take_append_eq_append_take]
  rw [Nat.sub_eq_zero_of_le hlen]
  simp [List.take_take]

/-- Witness for C3: two fragments with distinct keys, the vector path
ranking the first and the lexical path the second; the vector fragment is
returned. -/
theorem retrieve_vector_first_witness :
    retrieve
      [⟨"a.pdf".data, 0, "alpha text".data⟩, ⟨"b.pdf".data, 1, "beta text".data⟩]
      [0, 1] (.ok ()) (.ok [0]) 1 =
      .ok [⟨"a.pdf".data, 0, "alpha text".data⟩] := by
  have h := retrieve_vector_first
    [⟨"a.pdf".data, 0, "alpha text".data⟩, ⟨"b.pdf".data, 1, "beta text".data⟩]
    [0, 1] [0] 1
    [⟨"a.pdf".data, 0, "alpha text".data⟩] [⟨"b.pdf".data, 1, "beta text".data⟩]
    rfl rfl (by decide) (by decide) (by decide)
  simpa using h

/-- C8: a failure of the embedding service or of the vector-search service
makes `retrieve` fail with that error surfaced to the caller; it is never
mapped to a successful (in particular empty) result. -/
theorem retrieve_service_failure (metadata : List Chunk) (scores : List ℚ)
    (searchRes : Except (List Char) (List Int)) (k : Nat) (e : List Char) :
    retrieve metadata scores (.error e) searchRes k = .error e ∧
    retrieve metadata scores (.ok ()) (.error e) k = .error e ∧
    (∀ result, retrieve metadata scores (.error e) searchRes k ≠ .ok result) ∧
    (∀ result, retrieve metadata scores (.ok ()) (.error e) k ≠ .ok result) :=
  ⟨rfl, rfl, fun _ h => Except.noConfusion h, fun _ h => Except.noConfusion h⟩

/-- Witness for C8 at a concrete failing vector-search service: the error is
surfaced and the call does not return the silent empty result. -/
theorem retrieve_service_failure_witness :
    retrieve [] [] (.ok ()) (.error "ConnectionError".data) 3 = .error "ConnectionError".data ∧
    retrieve [] [] (.ok ()) (.error "ConnectionError".data) 3 ≠ .ok [] :=
  ⟨(retrieve_service_failure [] [] (.ok []) 3 "ConnectionError".data).2.1,
   (retrieve_service_failure [] [] (.ok []) 3 "ConnectionError".data).2.2.2 []⟩

/-- C1 counterexample: on an empty corpus, `retrieve` raises rather than
returning an empty sequence: faiss pads the missing neighbours of the
query with label `-1`, and `metadata[-1]` on the empty corpus raises
`IndexError`. -/
theorem retrieve_empty_corpus_counterexample :
    retrieve [] [] (.ok ()) (.ok (faissEmptySearchRow 3)) 3 =
      .error "IndexError".data := rfl

/-- C1 amended: on an empty corpus, for every `k > 0`, `retrieve` fails with
an `IndexError` (it does not return an empty sequence): the faiss search row
for an empty index is `k` labels `-1`, and indexing the empty metadata list
with `-1` raises. Independently, module initialisation already raises
`ZeroDivisionError` in `BM25Okapi([])` for an empty corpus. -/
theorem retrieve_empty_corpus_raises (k : Nat) (hk : 0 < k) :
    retrieve [] [] (.ok ()) (.ok (faissEmptySearchRow k)) k =
      .error "IndexError".data := by
  obtain ⟨k', rfl⟩ : ∃ k', k = k' + 1 := ⟨k - 1, by omega⟩
  simp only [retrieve, faissEmptySearchRow, List.replicate_succ, List.mapM_cons]
  have h : pyGet [] (-1) = none := rfl
  rw [h]
  rfl

/-- Witness for C1's amended statement at `k = 2`. -/
theorem retrieve_empty_corpus_raises_witness :
    retrieve [] [] (.ok ()) (.ok (faissEmptySearchRow 2)) 2 =
      .error "IndexError".data :=
  retrieve_empty_corpus_raises 2 (by decide)

/-- C7 counterexample: with a non-empty retrieved context, an exception of
the generation service propagates out of `ask_question` as a raw error to
the caller — `generate` has no handler around the API call — contradicting
the claim that a generation-service error is never propagated. -/
theorem ask_question_propagates_error_counterexample :
    ask_question [⟨"a.pdf".data, 0, "engine limits".data⟩]
      (.error "APIConnectionError".data) false =
      .error "APIConnectionError".data := rfl

/-- C7 amended: `ask_question` returns the canonical refusal sentence
byte-for-byte whenever the retrieved context strips to the empty string
(in particular whenever no fragment was retrieved); a generation-service
error, however, is not caught and propagates to the caller unchanged. -/
theorem ask_question_refusal_and_propagation (retrieved : List Chunk)
    (genSvc : Except (List Char) (List Char)) (debug : Bool) :
    (pyStrip (List.intercalate ['\n'] (retrieved.map Chunk.text)) = [] →
      ask_question retrieved genSvc debug =
        .ok ⟨REFUSAL, retrieved.map citation, if debug then retrieved else []⟩) ∧
    (∀ e, genSvc = .error e →
      pyStrip (List.intercalate ['\n'] (retrieved.map Chunk.text)) ≠ [] →
      ask_question retrieved genSvc debug = .error e) := by
  constructor
  · intro h
    rw [ask_question, generate, if_pos h]
    rfl
  · intro e he h
    rw [ask_question, generate, if_neg h, he]

/-- Witness for C7's amended statement: an empty retrieval yields the
refusal verbatim regardless of the generation service. -/
theorem ask_question_refusal_and_propagation_witness :
    ask_question [] (.ok "ignored".data) false = .ok ⟨REFUSAL, [], []⟩ := by
  have h := (ask_question_refusal_and_propagation []
    (.ok "ignored".data) false).1 (by decide)
  simpa using h

/-- A slice `text[start:start+size]` with non-negative `start` and `size`
has at most `size` characters. -/
lemma pySlice_length_le (s : List Char) (a size : Int)
    (ha : 0 ≤ a) (hs : 0 ≤ size) :
    ((pySlice s a (a + size)).length : Int) ≤ size := by
  rw [pySlice]
  simp only [if_neg (not_lt.mpr ha), if_neg (not_lt.mpr (by omega : (0:Int) ≤ a + size))]
  simp only [List.length_drop, List.length_take]
  omega

/-- With a positive step (`overlap < size`) the chunking loop finishes
within `|text| - start` iterations, whatever the sign of `size`; and when
`size ≥ 0` every chunk it emits has at most `size` characters. -/
lemma chunkTextFuel_total (text : List Char) (size overlap : Int)
    (hso : overlap < size) :
    ∀ (fuel : Nat) (start : Int) (acc : List (List Char)),
      0 ≤ start →
      max ((text.length : Int) - start) 0 < (fuel : Int) →
      (0 ≤ size → ∀ c ∈ acc, (c.length : Int) ≤ size) →
      ∃ out, chunkTextFuel text size overlap fuel start acc = some out ∧
        (0 ≤ size → ∀ c ∈ out, (c.length : Int) ≤ size) := by
  intro fuel
  induction fuel with
  | zero =>
    intro start acc _ hf _
    have := le_max_right ((text.length : Int) - start) (0 : Int)
    omega
  | succ fuel ih =>
    intro start acc hstart hf hacc
    rw [chunkTextFuel]
    by_cases hlt : start < (text.length : Int)
    · rw [if_pos hlt]
      refine ih (start + (size - overlap)) _ (by omega) ?_ ?_
      · rw [max_eq_left (by omega)] at hf
        rcases le_or_lt ((text.length : Int) - (start + (size - overlap))) 0 with
          hle | hgt
        · rw [max_eq_right hle]; omega
        · rw [max_eq_left (le_of_lt hgt)]; omega
      · intro hs c hc
        rcases List.mem_append.mp hc with h | h
        · exact hacc hs c h
        · rw [List.mem_singleton.mp h]
          exact pySlice_length_le text start size hstart hs
    · rw [if_neg hlt]
      exact ⟨acc, rfl, hacc⟩

/-- With a non-positive step (`size ≤ overlap`), the start position never
advances past the end of a non-empty text, so the loop never exits: the
fuelled run returns `none` for every fuel. -/
lemma chunkTextFuel_loops (text : List Char) (size overlap : Int)
    (hso : size ≤ overlap) :
    ∀ (fuel : Nat) (start : Int) (acc : List (List Char)),
      start < (text.length : Int) →
      chunkTextFuel text size overlap fuel start acc = none := by
  intro fuel
  induction fuel with
  | zero => intro start acc _; rfl
  | succ fuel ih =>
    intro start acc hlt
    rw [chunkTextFuel, if_pos hlt]
    exact ih _ _ (by omega)

/-- C10 counterexample: for `size = -1 > overlap = -2` the loop terminates,
but the first chunk of `"hello"` is `"hell"` (Python's negative slice bound
counts from the end), whose length `4` exceeds `size = -1` — refuting the
claim that every chunk has length at most `size` whenever
`size > overlap`. -/
theorem chunk_text_negative_size_counterexample :
    (-2 : Int) < -1 ∧
    chunk_text "hello".data (-1) (-2) 6 =
      some ["hell".data, [], [], [], []] ∧
    "hell".data ∈ ["hell".data, ([] : List Char), [], [], []] ∧
    ¬ (("hell".data.length : Int) ≤ -1) := by
  exact ⟨by decide, rfl, by decide, by decide⟩

/-- C10 amended: `chunk_text` terminates for every text whenever
`size > overlap`, negative sizes included; when additionally `size ≥ 0`
every chunk has length at most `size` (for negative `size` the slice can
wrap and be longer); while for `size ≤ overlap` and a non-empty text the
loop's start position never advances past the end and the function does
not terminate: the fuelled run is `none` for every fuel. -/
theorem chunk_text_termination (text : List Char) (size overlap : Int) :
    (overlap < size →
      ∃ out, chunk_text text size overlap (text.length + 1) = some out ∧
        (0 ≤ size → ∀ c ∈ out, (c.length : Int) ≤ size)) ∧
    (size ≤ overlap → text ≠ [] →
      ∀ fuel, chunk_text text size overlap fuel = none) := by
  constructor
  · intro h1
    refine chunkTextFuel_total text size overlap h1 (text.length + 1) 0 []
      le_rfl ?_ (by simp)
    rw [sub_zero, max_eq_left (by positivity)]
    push_cast
    omega
  · intro h1 h2 fuel
    refine chunkTextFuel_loops text size overlap h1 fuel 0 [] ?_
    have hpos : 0 < text.length := List.length_pos.mpr h2
    exact_mod_cast hpos

/-- Witness for C10's amended statement at the default parameters
`size = 500`, `overlap = 50`. -/
theorem chunk_text_termination_witness :
    ∃ out, chunk_text "hi there".data 500 50 9 = some out ∧
      (0 ≤ (500 : Int) → ∀ c ∈ out, (c.length : Int) ≤ 500) :=
  (chunk_text_termination "hi there".data 500 50).1 (by decide)

end AirmanRag
